import Mathlib

/-!
Verification of the network-generation core of a rule-based modelling toolkit
(the `bng` module: `generate_network`, `generate_equations`, `_parse_species`,
`_parse_group`).

The Python source is shallowly embedded: strings are `List Char`, Python
exceptions become `Except`/`Option` results, sympy expressions become the
inductive `SymExpr` syntax tree, and the in-place mutation of the model object
becomes explicit state passing.  Python string primitives (`str.split`,
`str.strip`, `int(...)`, the two `re.match` patterns used by the module) are
reproduced by executable Lean functions below.
-/

namespace Bng

/-! ### Python string primitives -/

/-- Whitespace test used by Python `str.split()` / `str.strip()`. -/
def isWs (c : Char) : Bool := c.isWhitespace

/-- Word-character test for the regex class `\w` (ASCII letters, digits, `_`). -/
def isWordChar (c : Char) : Bool := c.isAlphanum || c = '_'

/-- Split a character list at every character satisfying `p`, keeping empty
pieces, like Python `str.split(sep)` for a one-character separator. -/
def splitBy (p : Char → Bool) : List Char → List (List Char)
  | [] => [[]]
  | c :: cs =>
    let r := splitBy p cs
    if p c then [] :: r
    else
      match r with
      | h :: t => (c :: h) :: t
      | [] => [[c]]

/-- Python `s.split(sep)` for a single-character separator. -/
def pySplitChar (sep : Char) (l : List Char) : List (List Char) :=
  splitBy (fun c => c = sep) l

/-- Python `s.split(sep, 1)` for a single-character separator: split only at
the first occurrence. -/
def pySplitChar1 (sep : Char) : List Char → List (List Char)
  | [] => [[]]
  | c :: cs =>
    if c = sep then [[], cs]
    else
      match pySplitChar1 sep cs with
      | h :: t => (c :: h) :: t
      | [] => [[c]]

/-- Python `s.split()` with no separator: split on whitespace runs and drop
empty tokens. -/
def pySplitWs (l : List Char) : List (List Char) :=
  (splitBy isWs l).filter (fun t => t ≠ [])

/-- Python `s.strip()`: remove leading and trailing whitespace. -/
def stripChars (l : List Char) : List Char :=
  ((l.dropWhile isWs).reverse.dropWhile isWs).reverse

/-- Decimal value of a digit run. -/
def digitsToNat (l : List Char) : Nat :=
  l.foldl (fun a c => a * 10 + (c.toNat - 48)) 0

/-- Python `int(s)` on a string: optional surrounding whitespace, optional
sign, then a nonempty digit run; anything else raises `ValueError` (`none`). -/
def pyInt (l : List Char) : Option Int :=
  let t := stripChars l
  match t with
  | '-' :: ds =>
    if ds ≠ [] ∧ ds.all Char.isDigit then some (-(digitsToNat ds : Int)) else none
  | '+' :: ds =>
    if ds ≠ [] ∧ ds.all Char.isDigit then some ((digitsToNat ds : Int)) else none
  | ds =>
    if ds ≠ [] ∧ ds.all Char.isDigit then some ((digitsToNat ds : Int)) else none

/-- Substring containment, Python `needle in hay` on strings. -/
def containsSub (needle : List Char) : List Char → Bool
  | [] => needle.isEmpty
  | c :: cs => needle.isPrefixOf (c :: cs) || containsSub needle cs

/-- Longest `\w*` run at the front of the list, with the remainder. -/
def takeWord (l : List Char) : List Char × List Char :=
  (l.takeWhile isWordChar, l.dropWhile isWordChar)

/-! ### Symbolic rate expressions

The module manipulates sympy objects through `sympy.numbers.Zero()`,
`sympy.Symbol`, `sympy.Mul(*args)`, `+`, `-` and `* -1`; `SymExpr` is the
corresponding expression syntax.  Symbolic equality "after expansion" is
`semEq`: equality of integer evaluations under every valuation of symbols. -/

inductive SymExpr where
  | zero : SymExpr
  | lit : Int → SymExpr
  | sym : List Char → SymExpr
  | add : SymExpr → SymExpr → SymExpr
  | sub : SymExpr → SymExpr → SymExpr
  | mul : SymExpr → SymExpr → SymExpr
  deriving DecidableEq, Repr

/-- Evaluate a symbolic expression under a valuation of the symbols. -/
def SymExpr.eval (v : List Char → Int) : SymExpr → Int
  | .zero => 0
  | .lit n => n
  | .sym s => v s
  | .add a b => a.eval v + b.eval v
  | .sub a b => a.eval v - b.eval v
  | .mul a b => a.eval v * b.eval v

/-- Symbolic equality after expansion: the two expressions evaluate equally
under every integer valuation of the symbols. -/
def semEq (a b : SymExpr) : Prop :=
  ∀ v : List Char → Int, SymExpr.eval v a = SymExpr.eval v b

/-- sympy `Mul(*args)`: the product of a list of expressions. -/
def mulOfList (l : List SymExpr) : SymExpr :=
  l.foldl SymExpr.mul (SymExpr.lit 1)

/-! ### Data model

The pattern/complex structures live in the core module (`pysb.core`), outside
the sources under verification; the shapes below are modelled from the spec.
The parser in `bng.py` only constructs them, so plain record types suffice. -/

/-- Modelled from the spec: a monomer is a named molecular building block
(`pysb.core.Monomer`); only its name is consulted by the network parser. -/
structure Monomer where
  name : List Char
  deriving DecidableEq, Repr

/-- Modelled from the spec: a compartment (`pysb.core.Compartment`); only its
name is consulted by the network parser. -/
structure Compartment where
  name : List Char
  deriving DecidableEq, Repr

/-- Bond slot of a combined (state, bond) site condition: the dedicated
sentinels `pysb.core.WILD` and `pysb.core.ANY`, or a numeric bond index. -/
inductive BondVal where
  | wild : BondVal
  | any : BondVal
  | idx : Int → BondVal
  deriving DecidableEq, Repr

/-- Site-condition values produced by `_parse_species`: Python `None`, a bare
state string, one bond index, a list of bond indices, or a (state, bond)
pair. -/
inductive SiteCond where
  | noCond : SiteCond
  | state : List Char → SiteCond
  | bond : Int → SiteCond
  | bondList : List Int → SiteCond
  | stateBond : List Char → BondVal → SiteCond
  deriving DecidableEq, Repr

/-- Modelled from the spec: `pysb.core.MonomerPattern` as constructed by the
network parser (a monomer, a site-condition mapping, an optional
compartment). -/
structure MonomerPattern where
  monomer : Monomer
  site_conditions : List (List Char × SiteCond)
  compartment : Option Compartment
  deriving DecidableEq, Repr

/-- Modelled from the spec: `pysb.core.ComplexPattern` as constructed by the
network parser (monomer patterns plus an optional compartment). -/
structure ComplexPattern where
  monomer_patterns : List MonomerPattern
  compartment : Option Compartment
  deriving DecidableEq, Repr

/-- Observable with the `coefficients`/`species` parallel lists that
`_parse_group` appends to. -/
structure Observable where
  name : List Char
  coefficients : List Int
  species : List Int
  deriving DecidableEq, Repr

/-- Entry of `model.reactions` built by `generate_equations`. -/
structure Reaction where
  reactants : List Int
  products : List Int
  rate : SymExpr
  rule : List Char
  reverse : Bool
  deriving DecidableEq, Repr

/-- Entry of `model.reactions_bidirectional`.  The record is a Python dict;
its `reverse` key is deleted by the fix-up pass after the reaction loop, which
`Option` renders: `some b` while the key is present, `none` once deleted. -/
structure ReactionBd where
  reactants : List Int
  products : List Int
  rate : SymExpr
  rule : List Char
  reverse : Option Bool
  reversible : Bool
  deriving DecidableEq, Repr

/-- The model fields read or written by the `bng` module.  `rules` keeps only
the rule names (the module looks a name up and discards the result);
`initial_conditions` keeps only the entries' presence (the module only tests
emptiness). -/
structure Model where
  monomers : List Monomer
  compartments : List Compartment
  rules : List (List Char)
  observables : List Observable
  initial_conditions : List Unit
  species : List ComplexPattern
  odes : List SymExpr
  reactions : List Reaction
  reactions_bidirectional : List ReactionBd
  deriving DecidableEq, Repr

/-- Python exceptions that the module's parsing helpers can raise. -/
inductive PyErr where
  | valueError : PyErr
  | keyError : PyErr
  | indexError : PyErr
  | attributeError : PyErr
  deriving DecidableEq, Repr

/-! ### Species-line parsing (`_parse_species`) -/

/-- Branch of the site-entry parser for the combined form `name~state!bond`:
the bond token is checked against `?` and `!` before `int()`.  (The per-entry
dispatch, including Python tuple unpacking of a `split` with the wrong number
of pieces raising `ValueError`, is `parseSiteCond` below.) -/
def parseSiteCondStateBond (site_name condition : List Char) :
    Except PyErr (List Char × SiteCond) :=
  match pySplitChar '!' condition with
  | [state, bond] =>
    if bond = ['?'] then .ok (site_name, .stateBond state .wild)
    else if bond = ['!'] then .ok (site_name, .stateBond state .any)
    else
      match pyInt bond with
      | some n => .ok (site_name, .stateBond state (.idx n))
      | none => .error .valueError
  | _ => .error .valueError

/-- Branch of the site-entry parser for the bond-only forms `name!bond` and
`name!bond!bond`: every bond token goes straight to `int()`, with no check
against the `?`/`!` placeholder tokens. -/
def parseSiteCondBondOnly (site_name condition : List Char) :
    Except PyErr (List Char × SiteCond) :=
  if condition.contains '!' then
    match (pySplitChar '!' condition).mapM pyInt with
    | some ns => .ok (site_name, .bondList ns)
    | none => .error .valueError
  else
    match pyInt condition with
    | some n => .ok (site_name, .bond n)
    | none => .error .valueError

def parseSiteCond (ss : List Char) : Except PyErr (List Char × SiteCond) :=
  if ss.contains '!' ∧ ss.contains '~' then
    match pySplitChar '~' ss with
    | [site_name, condition] => parseSiteCondStateBond site_name condition
    | _ => .error .valueError
  else if ss.contains '!' then
    match pySplitChar1 '!' ss with
    | [site_name, condition] => parseSiteCondBondOnly site_name condition
    | _ => .error .valueError
  else if ss.contains '~' then
    match pySplitChar '~' ss with
    | [site_name, condition] => .ok (site_name, .state condition)
    | _ => .error .valueError
  else .ok (ss, .noCond)

/-- Python dict assignment `d[k] = v` on an association list: overwrite the
existing binding or append a new one. -/
def dictInsert (k : List Char) (v : SiteCond) :
    List (List Char × SiteCond) → List (List Char × SiteCond)
  | [] => [(k, v)]
  | (k', v') :: rest =>
    if k' = k then (k, v) :: rest else (k', v') :: dictInsert k v rest

/-- Match of the regex `(\w+)\(([^)]*)\)(?:@(\w+))?` against a monomer string
(`re.match`, so anchored at the start only): monomer name, the raw site list
between the parentheses, and an optional compartment name. -/
def matchMonomerHeader (ms : List Char) :
    Option (List Char × List Char × Option (List Char)) :=
  let (name, rest) := takeWord ms
  if name = [] then none
  else
    match rest with
    | '(' :: rest2 =>
      let sites := rest2.takeWhile (fun c => c ≠ ')')
      match rest2.dropWhile (fun c => c ≠ ')') with
      | ')' :: rest3 =>
        let comp :=
          match rest3 with
          | '@' :: rest4 =>
            let (w, _) := takeWord rest4
            if w = [] then none else some w
          | _ => none
        some (name, sites, comp)
      | _ => none
    | _ => none

/-- Match of the regex `(?:@(\w+)::)?(.*)` against the whole species string:
an optional leading `@compartment::` tag and the remainder. -/
def matchComplexCompartment (s : List Char) : Option (List Char) × List Char :=
  match s with
  | '@' :: rest =>
    let (w, rest2) := takeWord rest
    if w ≠ [] then
      match rest2 with
      | ':' :: ':' :: rest3 => (some w, rest3)
      | _ => (none, s)
    else (none, s)
  | _ => (none, s)

/-- Python `model.compartments.get(name)`: `None` for a missing name (and for
the name `None` itself). -/
def compartmentsGet (model : Model) : Option (List Char) → Option Compartment
  | none => none
  | some n => model.compartments.find? (fun c => c.name == n)

/-- Parse one monomer string of a species line into a `MonomerPattern`.  A
failed `re.match` gives `None`, and `.groups()` on it raises
`AttributeError`; a monomer name missing from `model.monomers` raises
`KeyError`. -/
def parseMonomerPattern (model : Model) (ms : List Char) :
    Except PyErr MonomerPattern :=
  match matchMonomerHeader ms with
  | none => .error .attributeError
  | some (mname, siteStr, compName) => do
    let conds ←
      if siteStr ≠ [] then
        (pySplitChar ',' siteStr).foldlM
          (fun acc ss => do
            let (k, v) ← parseSiteCond ss
            pure (dictInsert k v acc))
          ([] : List (List Char × SiteCond))
      else pure []
    match model.monomers.find? (fun m => m.name == mname) with
    | none => .error .keyError
    | some monomer =>
      .ok ⟨monomer, conds, compartmentsGet model compName⟩

/-- Embedding of `_parse_species(model, line)`: split the line into the three
whitespace-separated fields (the leading index and the trailing population
are bound but never used by the source), parse every dot-separated monomer
string, and append the resulting `ComplexPattern` to `model.species`. -/
def parseSpeciesLine (model : Model) (line : List Char) : Except PyErr Model :=
  match pySplitWs (stripChars line) with
  | [_index, species, _value] =>
    let (ccName, cstr) := matchComplexCompartment species
    match (pySplitChar '.' cstr).mapM (parseMonomerPattern model) with
    | .ok mps =>
      .ok { model with
              species := model.species ++ [⟨mps, compartmentsGet model ccName⟩] }
    | .error e => .error e
  | _ => .error .valueError

/-! ### Group-line parsing (`_parse_group`) -/

/-- Replace the element at position `j` (a no-op when out of range; every use
below is in range). -/
def modifyAt (l : List α) (j : Nat) (f : α → α) : List α :=
  match l.get? j with
  | some a => l.set j (f a)
  | none => l

/-- Parse one `[coeff*]speciesnumber` term of a group line: a missing
coefficient defaults to `1`; the species number is shifted from 1-based to
0-based, the coefficient is not.  Extra `*`-separated pieces beyond the
second are ignored, as in the source (`terms[0]`/`terms[1]`). -/
def parseGroupTerm (product : List Char) : Except PyErr (Int × Int) :=
  match pySplitChar '*' product with
  | [t] =>
    match pyInt t with
    | some sp => .ok (1, sp - 1)
    | none => .error .valueError
  | t0 :: t1 :: _ =>
    match pyInt t0, pyInt t1 with
    | some c, some sp => .ok (c, sp - 1)
    | _, _ => .error .valueError
  | [] => .error .valueError

/-- Embedding of `_parse_group(model, line)`: look the observable up by the
second field (`values[1]`, `IndexError` when absent; `KeyError` when no such
observable), and only when the line has exactly three fields append each
term's coefficient and 0-based species index to the observable's lists. -/
def parseGroupValues (model : Model) (values : List (List Char)) :
    Except PyErr Model :=
  match values.get? 1 with
  | none => .error .indexError
  | some obsName =>
    match model.observables.findIdx? (fun o => o.name == obsName) with
    | none => .error .keyError
    | some i =>
      if values.length = 3 then
        match (pySplitChar ',' (values.getD 2 [])).mapM parseGroupTerm with
        | .ok pairs =>
          .ok { model with
                  observables :=
                    modifyAt model.observables i
                      (fun o =>
                        { o with
                            coefficients := o.coefficients ++ pairs.map Prod.fst,
                            species := o.species ++ pairs.map Prod.snd }) }
        | .error e => .error e
      else .ok model

/-- Embedding of `_parse_group(model, line)`: split the line into fields and
process them. -/
def parseGroupLine (model : Model) (line : List Char) : Except PyErr Model :=
  parseGroupValues model (pySplitWs (stripChars line))

/-! ### Reaction-line processing (the loop body in `generate_equations`) -/

/-- Match of the regex `#(\w+)(?:\((reverse)\))?` against the rule field of a
reaction line: the rule name with the `(reverse)` marker stripped, and
whether the marker was present. -/
def parseRuleToken (rule : List Char) : Option (List Char × Bool) :=
  match rule with
  | '#' :: rest =>
    let (w, rest2) := takeWord rest
    if w = [] then none
    else some (w, "(reverse)".data.isPrefixOf rest2)
  | _ => none

/-- The data read off one reaction line before any model mutation. -/
structure RxnEntry where
  reactants : List Int
  products : List Int
  rateToks : List (List Char)
  ruleName : List Char
  isReverse : Bool
  deriving DecidableEq, Repr

/-- Tokenize one reaction line: five whitespace-separated fields, the
comma-separated reactant and product indices shifted from 1-based to 0-based,
the rate field split at `*` (`rsplit` with no count equals `split`), and the
rule field matched against the rule regex. -/
def parseReactionLine (line : List Char) : Except PyErr RxnEntry :=
  match pySplitWs (stripChars line) with
  | [_number, rS, pS, rateS, ruleS] =>
    match (pySplitChar ',' rS).mapM pyInt, (pySplitChar ',' pS).mapM pyInt with
    | some rs, some ps =>
      match parseRuleToken ruleS with
      | some (rn, irev) =>
        .ok ⟨rs.map (fun r => r - 1), ps.map (fun p => p - 1),
             pySplitChar '*' rateS, rn, irev⟩
      | none => .error .attributeError
    | _, _ => .error .valueError
  | _ => .error .valueError

/-- The combined rate of a reaction line: `sympy.Mul` over one population
symbol `__s<index>` per reactant followed by the rate tokens. -/
def combinedRateOf (e : RxnEntry) : SymExpr :=
  mulOfList
    ((e.reactants.map (fun r => SymExpr.sym ("__s" ++ toString r).data) ++
      e.rateToks.map SymExpr.sym))

/-- Python `l[i] = f(l[i])` on a list, with Python index semantics: negative
indices count from the end, and an index out of range raises `IndexError`
(`none`). -/
def pyModify (l : List SymExpr) (i : Int) (f : SymExpr → SymExpr) :
    Option (List SymExpr) :=
  let j : Int := if i < 0 then i + l.length else i
  if j < 0 then none
  else
    match l.get? j.toNat with
    | some a => some (l.set j.toNat (f a))
    | none => none

/-- Apply `pyModify` at each index of `idxs` in turn, as the `for` loops over
`products` and `reactants` do; the first failure aborts. -/
def foldModify (l : List SymExpr) (idxs : List Int) (f : SymExpr → SymExpr) :
    Option (List SymExpr) :=
  match idxs with
  | [] => some l
  | i :: t =>
    match pyModify l i f with
    | some l1 => foldModify l1 t f
    | none => none

/-- The per-reaction ODE accumulation: add the combined rate at every product
index, then subtract it at every reactant index. -/
def odesAddSub (odes : List SymExpr) (ps rs : List Int) (cr : SymExpr) :
    Option (List SymExpr) :=
  match foldModify odes ps (fun x => SymExpr.add x cr) with
  | some o1 => foldModify o1 rs (fun x => SymExpr.sub x cr)
  | none => none

/-- State threaded through the reaction loop: the model, the in-progress
bidirectional records (appended to `model.reactions_bidirectional` when the
loop finishes), and `reaction_cache`.  The cache stores positions into the
bidirectional list, rendering the dict's aliasing of the mutable record
objects. -/
structure RxnLoopState where
  model : Model
  rbd : List ReactionBd
  cache : List ((List Char × List Int × List Int) × Nat)
  deriving DecidableEq, Repr

/-- Python `reaction_cache.get(key)`: most recent binding first. -/
def cacheLookup (c : List ((List Char × List Int × List Int) × Nat))
    (k : List Char × List Int × List Int) : Option Nat :=
  match c.find? (fun kv => decide (kv.fst = k)) with
  | some kv => some kv.snd
  | none => none

/-- Mutation phase of one reaction line: look the rule name up
(`model.rules[rule_name]`, `KeyError` when absent), append the reaction
record, create or merge the bidirectional record keyed by
`(rule, reactants, products)` (a hit on the swapped key marks the stored
record reversible and subtracts this line's rate), then accumulate the ODE
terms; a bad species index raises `IndexError`. -/
def applyReaction (st : RxnLoopState) (e : RxnEntry) :
    Except PyErr RxnLoopState :=
  if st.model.rules.contains e.ruleName then
    let cr := combinedRateOf e
    let m1 := { st.model with
                  reactions := st.model.reactions ++
                    [(⟨e.reactants, e.products, cr, e.ruleName,
                       e.isReverse⟩ : Reaction)] }
    let step : List ReactionBd × List ((List Char × List Int × List Int) × Nat) :=
      match cacheLookup st.cache (e.ruleName, e.products, e.reactants) with
      | none =>
        (st.rbd ++ [⟨e.reactants, e.products, cr, e.ruleName,
                     some e.isReverse, false⟩],
         ((e.ruleName, e.reactants, e.products), st.rbd.length) :: st.cache)
      | some j =>
        (modifyAt st.rbd j
           (fun b => { b with reversible := true,
                              rate := SymExpr.sub b.rate cr }),
         st.cache)
    match odesAddSub st.model.odes e.products e.reactants cr with
    | some odes1 => .ok ⟨{ m1 with odes := odes1 }, step.fst, step.snd⟩
    | none => .error .indexError
  else .error .keyError

/-- Full processing of one reaction line. -/
def processReactionLine (st : RxnLoopState) (line : List Char) :
    Except PyErr RxnLoopState :=
  match parseReactionLine line with
  | .ok e => applyReaction st e
  | .error err => .error err

/-- The fix-up applied to each bidirectional record after the reaction loop:
a record built from a reverse-direction line swaps its reactant and product
tuples and multiplies its rate by `-1`; then the `reverse` key is deleted. -/
def fixupBd (b : ReactionBd) : ReactionBd :=
  match b.reverse with
  | some true =>
    { b with reactants := b.products, products := b.reactants,
             rate := SymExpr.mul (SymExpr.lit (-1)) b.rate, reverse := none }
  | _ => { b with reverse := none }

/-! ### Orchestration (`generate_network` and `generate_equations`) -/

/-- Errors visible from the orchestration entry points.  `networkParseError`
is the error the specification prescribes for malformed engine output; it is
included so that theorems can speak about it, and the implementation below
never produces it. -/
inductive BngError where
  | noInitialConditions : BngError
  | noRules : BngError
  | generateNetworkError : BngError
  | networkParseError : BngError
  | py : PyErr → BngError
  deriving DecidableEq, Repr

/-- Decidable equality of `Except` results, for evaluating the concrete
instances below. -/
instance {ε α : Type} [DecidableEq ε] [DecidableEq α] :
    DecidableEq (Except ε α) := fun a b =>
  match a, b with
  | .ok x, .ok y =>
    match decEq x y with
    | isTrue h => isTrue (by rw [h])
    | isFalse h => isFalse (by intro hc; cases hc; exact h rfl)
  | .error x, .error y =>
    match decEq x y with
    | isTrue h => isTrue (by rw [h])
    | isFalse h => isFalse (by intro hc; cases hc; exact h rfl)
  | .ok _, .error _ => isFalse (by intro hc; cases hc)
  | .error _, .ok _ => isFalse (by intro hc; cases hc)

/-- Result of `generate_network`: the outcome together with whether the
external engine was reached (a subprocess spawned, a temporary file
written). -/
structure GNResult where
  output : Except BngError (List Char)
  engineInvoked : Bool
  deriving DecidableEq, Repr

/-- Embedding of `generate_network(model)`.  The external engine is opaque
(spec section 4.3): its behaviour is a parameter, `some text` for a zero exit
status with `text` the net file read back, `none` for a failing run
(`GenerateNetworkError`).  The source checks `model.initial_conditions`
first, then `model.rules`, and only afterwards writes the temporary file and
spawns the subprocess. -/
def generate_network (engineOutput : Option (List Char)) (model : Model) :
    GNResult :=
  if model.initial_conditions = [] then ⟨.error .noInitialConditions, false⟩
  else if model.rules = [] then ⟨.error .noRules, false⟩
  else
    match engineOutput with
    | some text => ⟨.ok text, true⟩
    | none => ⟨.error .generateNetworkError, true⟩

/-- Advance the line iterator past the first line containing `marker`
(substring test, as in `while marker not in lines.next()`); `none` when the
iterator is exhausted first (`StopIteration`). -/
def skipUntilMarker (marker : List Char) : List (List Char) → Option (List (List Char))
  | [] => none
  | l :: ls => if containsSub marker l then some ls else skipUntilMarker marker ls

/-- Outcome of one section's `while True` loop over the line iterator:
the end marker was reached (`cont`, with the remaining lines), the iterator
was exhausted (`eof`, the `StopIteration` that the caller catches and
ignores, keeping the state built so far), or a line raised (`err`). -/
inductive LoopRes (σ : Type) where
  | cont : σ → List (List Char) → LoopRes σ
  | eof : σ → LoopRes σ
  | err : PyErr → LoopRes σ
  deriving DecidableEq, Repr

/-- Generic section loop: pull lines until one contains `endMarker`, feeding
every earlier line to `step`. -/
def sectionLoop (endMarker : List Char) (step : σ → List Char → Except PyErr σ)
    (st : σ) : List (List Char) → LoopRes σ
  | [] => .eof st
  | l :: ls =>
    if containsSub endMarker l then .cont st ls
    else
      match step st l with
      | .ok st1 => sectionLoop endMarker step st1 ls
      | .error e => .err e

/-- The body of `generate_equations` after the engine ran: split the net text
into lines and walk the species, reactions and groups sections in order.
`StopIteration` (`eof`) at any point is caught by the `except` clause and the
model built so far is returned; any other exception propagates.  The species
list is reset only once `begin species` was found, the ODE accumulators are
zeroed only once `begin reactions` was found, and the bidirectional fix-up
runs only when `end reactions` was reached. -/
def processNet (model : Model) (text : List Char) : Except BngError Model :=
  match skipUntilMarker "begin species".data (pySplitChar '\n' text) with
  | none => .ok model
  | some rest =>
    match sectionLoop "end species".data parseSpeciesLine
        { model with species := [] } rest with
    | .err e => .error (.py e)
    | .eof m => .ok m
    | .cont m2 rest2 =>
      match skipUntilMarker "begin reactions".data rest2 with
      | none => .ok m2
      | some rest3 =>
        match sectionLoop "end reactions".data processReactionLine
            ⟨{ m2 with odes := List.replicate m2.species.length SymExpr.zero },
             [], []⟩ rest3 with
        | .err e => .error (.py e)
        | .eof st =>
          .ok { st.model with
                  reactions_bidirectional :=
                    st.model.reactions_bidirectional ++ st.rbd }
        | .cont st rest4 =>
          match skipUntilMarker "begin groups".data rest4 with
          | none =>
            .ok { st.model with
                    reactions_bidirectional :=
                      st.model.reactions_bidirectional ++ st.rbd.map fixupBd }
          | some rest5 =>
            match sectionLoop "end groups".data parseGroupLine
                { st.model with
                    reactions_bidirectional :=
                      st.model.reactions_bidirectional ++ st.rbd.map fixupBd }
                rest5 with
            | .err e => .error (.py e)
            | .eof m => .ok m
            | .cont m _ => .ok m

/-- Embedding of `generate_equations(model)`: a non-empty `model.odes` makes
the call return at once without touching the model or the engine; otherwise
`generate_network` runs and its output is parsed.  The second component
records whether the external engine was invoked. -/
def generate_equations (engineOutput : Option (List Char)) (model : Model) :
    Except BngError Model × Bool :=
  if model.odes = [] then
    match generate_network engineOutput model with
    | ⟨.error e, invoked⟩ => (.error e, invoked)
    | ⟨.ok text, invoked⟩ => (processNet model text, invoked)
  else (.ok model, false)

/-! ### Lemmas about the string primitives -/

theorem splitBy_ne_nil (p : Char → Bool) (l : List Char) : splitBy p l ≠ [] := by
  cases l with
  | nil => simp [splitBy]
  | cons c cs =>
    simp only [splitBy]
    split
    · simp
    · split <;> simp_all

theorem splitBy_no_sep (p : Char → Bool) (a : List Char)
    (ha : ∀ c ∈ a, p c = false) : splitBy p a = [a] := by
  induction a with
  | nil => rfl
  | cons c cs ih =>
    have hc : p c = false := ha c (by simp)
    have ih' := ih (fun x hx => ha x (by simp [hx]))
    simp only [splitBy, hc, ih']
    simp

theorem splitBy_sep_cons (p : Char → Bool) (a b : List Char) (s : Char)
    (ha : ∀ c ∈ a, p c = false) (hs : p s = true) :
    splitBy p (a ++ s :: b) = a :: splitBy p b := by
  induction a with
  | nil => simp [splitBy, hs]
  | cons c cs ih =>
    have hc : p c = false := ha c (by simp)
    have ih' := ih (fun x hx => ha x (by simp [hx]))
    simp only [List.cons_append, splitBy, List.append_eq, hc,
      Bool.false_eq_true, if_false]
    rw [ih']

theorem splitBy_all_sep (p : Char → Bool) (b : List Char)
    (hb : ∀ c ∈ b, p c = true) :
    splitBy p b = List.replicate (b.length + 1) [] := by
  induction b with
  | nil => rfl
  | cons c cs ih =>
    have hc : p c = true := hb c (by simp)
    have ih' := ih (fun x hx => hb x (by simp [hx]))
    simp [splitBy, hc, ih', List.replicate_succ]

theorem splitBy_append_all_sep (p : Char → Bool) (a b : List Char)
    (hb : ∀ c ∈ b, p c = true) :
    splitBy p (a ++ b) = splitBy p a ++ List.replicate b.length [] := by
  induction a with
  | nil =>
    simpa [splitBy, List.replicate_succ] using splitBy_all_sep p b hb
  | cons c cs ih =>
    by_cases hc : p c = true
    · simp [splitBy, hc, ih]
    · have hc' : p c = false := by simpa using hc
      rcases hne : splitBy p (cs ++ b) with _ | ⟨h1, t1⟩
      · exact absurd hne (splitBy_ne_nil p _)
      · rcases hne2 : splitBy p cs with _ | ⟨h2, t2⟩
        · exact absurd hne2 (splitBy_ne_nil p _)
        · have : h1 :: t1 = (h2 :: t2) ++ List.replicate b.length [] := by
            rw [← hne, ← hne2, ih]
          simp only [List.cons_append, List.cons.injEq] at this
          obtain ⟨e1, e2⟩ := this
          simp only [List.cons_append, splitBy, List.append_eq, hc',
            Bool.false_eq_true, if_false]
          rw [hne, hne2]
          simp [e1, e2]

theorem pySplitWs_append_ws (a b : List Char)
    (hb : ∀ c ∈ b, isWs c = true) : pySplitWs (a ++ b) = pySplitWs a := by
  unfold pySplitWs
  rw [splitBy_append_all_sep isWs a b hb, List.filter_append]
  have : (List.replicate b.length ([] : List Char)).filter (fun t => t ≠ []) = [] := by
    induction b.length with
    | zero => rfl
    | succ n ih => simp [List.replicate_succ, ih]
  simp [this]

theorem pySplitWs_dropWhile_ws (l : List Char) :
    pySplitWs (l.dropWhile isWs) = pySplitWs l := by
  induction l with
  | nil => rfl
  | cons c cs ih =>
    by_cases hc : isWs c = true
    · rw [List.dropWhile_cons_of_pos hc, ih]
      simp [pySplitWs, splitBy, hc]
    · rw [List.dropWhile_cons_of_neg (by simpa using hc)]

theorem pySplitWs_strip (l : List Char) :
    pySplitWs (stripChars l) = pySplitWs l := by
  have key : ∀ d : List Char,
      pySplitWs ((d.reverse.dropWhile isWs).reverse) = pySplitWs d := by
    intro d
    have h := List.takeWhile_append_dropWhile (p := isWs) (l := d.reverse)
    have hws : ∀ c ∈ (d.reverse.takeWhile isWs).reverse, isWs c = true := by
      intro c hc
      rw [List.mem_reverse] at hc
      exact List.mem_takeWhile_imp hc
    have hdecomp : (d.reverse.dropWhile isWs).reverse ++
        (d.reverse.takeWhile isWs).reverse = d := by
      have h2 := congrArg List.reverse h
      rw [List.reverse_append, List.reverse_reverse] at h2
      exact h2
    calc pySplitWs ((d.reverse.dropWhile isWs).reverse)
        = pySplitWs ((d.reverse.dropWhile isWs).reverse ++
            (d.reverse.takeWhile isWs).reverse) :=
          (pySplitWs_append_ws _ _ hws).symm
      _ = pySplitWs d := by rw [hdecomp]
  unfold stripChars
  rw [key (l.dropWhile isWs), pySplitWs_dropWhile_ws]

theorem pySplitWs_tok_cons (a rest : List Char) (hne : a ≠ [])
    (ha : ∀ c ∈ a, isWs c = false) :
    pySplitWs (a ++ ' ' :: rest) = a :: pySplitWs rest := by
  unfold pySplitWs
  rw [splitBy_sep_cons isWs a rest ' ' ha (by decide)]
  simp [hne]

theorem pySplitChar_sep_cons (sep : Char) (a b : List Char)
    (ha : ∀ c ∈ a, c ≠ sep) :
    pySplitChar sep (a ++ sep :: b) = a :: pySplitChar sep b := by
  unfold pySplitChar
  exact splitBy_sep_cons _ a b sep (by intro c hc; simpa using ha c hc) (by simp)

theorem pySplitChar_no_sep (sep : Char) (a : List Char)
    (ha : ∀ c ∈ a, c ≠ sep) : pySplitChar sep a = [a] := by
  unfold pySplitChar
  exact splitBy_no_sep _ a (by intro c hc; simpa using ha c hc)

/-! ### List update lemmas -/

theorem getD_set_self {α : Type} (l : List α) (j : Nat) (x d : α)
    (h : j < l.length) : (l.set j x).getD j d = x := by
  induction l generalizing j with
  | nil => simp at h
  | cons a t ih =>
    cases j with
    | zero => rfl
    | succ j => simpa using ih j (by simpa using h)

theorem getD_set_ne {α : Type} (l : List α) (i j : Nat) (x d : α)
    (h : i ≠ j) : (l.set i x).getD j d = l.getD j d := by
  induction l generalizing i j with
  | nil => simp [List.set]
  | cons a t ih =>
    cases i with
    | zero =>
      cases j with
      | zero => exact absurd rfl h
      | succ j => rfl
    | succ i =>
      cases j with
      | zero => rfl
      | succ j => simpa using ih i j (by omega)

/-! ### Occurrence counting and net flux -/

/-- Occurrences of the species index `j` in an index tuple. -/
def countI (j : Nat) : List Int → Int
  | [] => 0
  | i :: t => (if i = (j : Int) then 1 else 0) + countI j t

/-- Net flux of species `j` over a reaction list: the specification-side sum
of `+rate` per occurrence of `j` among the products and `-rate` per
occurrence of `j` among the reactants, evaluated under `v`. -/
def rxnFlux (j : Nat) (rxns : List Reaction) (v : List Char → Int) : Int :=
  (rxns.map
    (fun r => (countI j r.products - countI j r.reactants) * r.rate.eval v)).sum

theorem rxnFlux_append_one (j : Nat) (rxns : List Reaction) (r : Reaction)
    (v : List Char → Int) :
    rxnFlux j (rxns ++ [r]) v =
      rxnFlux j rxns v +
        (countI j r.products - countI j r.reactants) * r.rate.eval v := by
  simp [rxnFlux]

/-! ### ODE accumulation lemmas -/

theorem pyModify_nonneg_spec (l : List SymExpr) (i : Int)
    (f : SymExpr → SymExpr) (l' : List SymExpr) (hi : 0 ≤ i)
    (h : pyModify l i f = some l') :
    ∃ jn : Nat, i = (jn : Int) ∧ jn < l.length ∧
      l' = l.set jn (f (l.getD jn SymExpr.zero)) := by
  unfold pyModify at h
  have hneg : ¬ i < 0 := by omega
  simp only [hneg, if_false] at h
  split at h
  · rename_i a ha
    simp only [Option.some.injEq] at h
    refine ⟨i.toNat, (Int.toNat_of_nonneg hi).symm, ?_, ?_⟩
    · rcases List.get?_eq_some.mp ha with ⟨hlt, _⟩
      exact hlt
    · rw [← h]
      have hga : l.getD i.toNat SymExpr.zero = a := by
        simp [List.getD_eq_getElem?_getD, ← List.get?_eq_getElem?, ha]
      rw [hga]
  · simp at h

theorem foldModify_spec (g : SymExpr → SymExpr) (δ : (List Char → Int) → Int)
    (hg : ∀ (x : SymExpr) (v : List Char → Int),
      (g x).eval v = x.eval v + δ v) :
    ∀ (idxs : List Int) (l l' : List SymExpr),
      (∀ i ∈ idxs, 0 ≤ i) → foldModify l idxs g = some l' →
      l'.length = l.length ∧
      ∀ j : Nat, j < l.length → ∀ v,
        (l'.getD j SymExpr.zero).eval v =
          (l.getD j SymExpr.zero).eval v + countI j idxs * δ v := by
  intro idxs
  induction idxs with
  | nil =>
    intro l l' _ h
    unfold foldModify at h
    cases h
    simp [countI]
  | cons i t ih =>
    intro l l' hnn h
    unfold foldModify at h
    split at h
    case h_2 => simp at h
    case h_1 l1 hm =>
      obtain ⟨jn, hjn, hlt, hset⟩ :=
        pyModify_nonneg_spec l i g l1 (hnn i (by simp)) hm
      have hlen1 : l1.length = l.length := by rw [hset]; simp
      obtain ⟨hlen, hmain⟩ := ih l1 l' (fun x hx => hnn x (by simp [hx])) h
      refine ⟨by omega, ?_⟩
      intro j hj v
      have hj1 : j < l1.length := by omega
      have hstep := hmain j hj1 v
      by_cases hje : j = jn
      · subst hje
        have hup : l1.getD j SymExpr.zero = g (l.getD j SymExpr.zero) := by
          rw [hset]; exact getD_set_self l j _ _ hj
        rw [hup, hg] at hstep
        have hcnt : countI j ((j : Int) :: t) = 1 + countI j t := by
          simp [countI]
        rw [hstep, hjn, hcnt]
        ring
      · have hup : l1.getD j SymExpr.zero = l.getD j SymExpr.zero := by
          rw [hset]; exact getD_set_ne l jn j _ _ (fun hc => hje hc.symm)
        rw [hup] at hstep
        have hcnt : countI j ((jn : Int) :: t) = countI j t := by
          have hcond : ¬ ((jn : Int) = (j : Int)) := by
            intro hc
            exact hje (by exact_mod_cast hc.symm)
          simp [countI, hcond]
        rw [hstep, hjn, hcnt]

theorem odesAddSub_spec (odes : List SymExpr) (ps rs : List Int)
    (cr : SymExpr) (odes' : List SymExpr)
    (hp : ∀ i ∈ ps, 0 ≤ i) (hr : ∀ i ∈ rs, 0 ≤ i)
    (h : odesAddSub odes ps rs cr = some odes') :
    odes'.length = odes.length ∧
    ∀ j : Nat, j < odes.length → ∀ v,
      (odes'.getD j SymExpr.zero).eval v =
        (odes.getD j SymExpr.zero).eval v +
          (countI j ps - countI j rs) * cr.eval v := by
  unfold odesAddSub at h
  split at h
  case h_2 => simp at h
  case h_1 o1 h1 =>
    obtain ⟨hlen1, hm1⟩ :=
      foldModify_spec (fun x => SymExpr.add x cr) (fun v => cr.eval v)
        (fun x v => rfl) ps odes o1 hp h1
    obtain ⟨hlen2, hm2⟩ :=
      foldModify_spec (fun x => SymExpr.sub x cr) (fun v => -(cr.eval v))
        (fun x v => by simp only [SymExpr.eval]; ring) rs o1 odes' hr h
    refine ⟨by omega, ?_⟩
    intro j hj v
    have hj1 : j < o1.length := by omega
    have := hm2 j hj1 v
    rw [this, hm1 j hj v]
    ring

/-! ### The ODE invariant and its preservation -/

/-- Every ODE accumulator equals the net flux of its species over the raw
(non-merged) reaction list built so far. -/
def OdesInv (m : Model) : Prop :=
  ∀ i : Nat, i < m.odes.length → ∀ v,
    (m.odes.getD i SymExpr.zero).eval v = rxnFlux i m.reactions v

/-- Index tuples of a reaction are all nonnegative: a well-formed engine
response names species `1` and up, so the 0-based indices are at least `0`
(the token `0` would turn into `-1` and, by Python list semantics, alias the
last accumulator). -/
def nonnegRxn (r : Reaction) : Prop :=
  (∀ p ∈ r.products, 0 ≤ p) ∧ (∀ q ∈ r.reactants, 0 ≤ q)

instance (r : Reaction) : Decidable (nonnegRxn r) := by
  unfold nonnegRxn
  infer_instance

theorem applyReaction_model_parts (st : RxnLoopState) (e : RxnEntry)
    (st' : RxnLoopState) (h : applyReaction st e = .ok st') :
    st'.model.reactions = st.model.reactions ++
      [⟨e.reactants, e.products, combinedRateOf e, e.ruleName, e.isReverse⟩] ∧
    odesAddSub st.model.odes e.products e.reactants (combinedRateOf e) =
      some st'.model.odes ∧
    st'.model.species = st.model.species ∧
    st'.model.observables = st.model.observables ∧
    st'.model.reactions_bidirectional = st.model.reactions_bidirectional := by
  unfold applyReaction at h
  by_cases hc : st.model.rules.contains e.ruleName = true
  · simp only [hc, if_true] at h
    rcases ho : odesAddSub st.model.odes e.products e.reactants
        (combinedRateOf e) with _ | odes1
    · rw [ho] at h
      simp at h
    · rw [ho] at h
      injection h with h2
      subst h2
      refine ⟨rfl, ?_, rfl, rfl, rfl⟩
      rfl
  · simp only [hc] at h
    simp at h

theorem processReactionLine_ok (st : RxnLoopState) (l : List Char)
    (st' : RxnLoopState) (h : processReactionLine st l = .ok st') :
    ∃ e, parseReactionLine l = .ok e ∧ applyReaction st e = .ok st' := by
  unfold processReactionLine at h
  split at h
  · rename_i e he
    exact ⟨e, he, h⟩
  · cases h

theorem applyReaction_inv (st st' : RxnLoopState) (e : RxnEntry)
    (h : applyReaction st e = .ok st')
    (hp : ∀ p ∈ e.products, 0 ≤ p) (hq : ∀ q ∈ e.reactants, 0 ≤ q)
    (hinv : OdesInv st.model) : OdesInv st'.model := by
  obtain ⟨hrxn, hodes, -, -, -⟩ := applyReaction_model_parts st e st' h
  obtain ⟨hlen, hm⟩ :=
    odesAddSub_spec st.model.odes e.products e.reactants (combinedRateOf e)
      st'.model.odes hp hq hodes
  intro i hi v
  have hi0 : i < st.model.odes.length := by omega
  rw [hm i hi0 v, hinv i hi0 v, hrxn, rxnFlux_append_one]

/-- A section-loop run ends in state `s`: either the end marker was reached
or the stream ran out. -/
def loopEnds {σ : Type} (r : LoopRes σ) (s : σ) : Prop :=
  (∃ rest, r = .cont s rest) ∨ r = .eof s

theorem rxnLoop_reactions_mono (em : List Char) :
    ∀ (lines : List (List Char)) (st st' : RxnLoopState),
      loopEnds (sectionLoop em processReactionLine st lines) st' →
      st.model.reactions <+: st'.model.reactions := by
  intro lines
  induction lines with
  | nil =>
    intro st st' hend
    rcases hend with ⟨rest, hc⟩ | he
    · simp [sectionLoop] at hc
    · simp only [sectionLoop] at he
      cases he
      exact List.prefix_rfl
  | cons l ls ih =>
    intro st st' hend
    by_cases hml : containsSub em l = true
    · have hstep : sectionLoop em processReactionLine st (l :: ls) = .cont st ls := by
        simp [sectionLoop, hml]
      rw [hstep] at hend
      rcases hend with ⟨rest, hc⟩ | he
      · cases hc
        exact List.prefix_rfl
      · cases he
    · have hml' : containsSub em l = false := by simpa using hml
      rcases hp : processReactionLine st l with err | st1
      · have hstep : sectionLoop em processReactionLine st (l :: ls) = .err err := by
          simp [sectionLoop, hml', hp]
        rw [hstep] at hend
        rcases hend with ⟨rest, hc⟩ | he
        · cases hc
        · cases he
      · have hloop : sectionLoop em processReactionLine st (l :: ls) =
            sectionLoop em processReactionLine st1 ls := by
          simp [sectionLoop, hml', hp]
        rw [hloop] at hend
        obtain ⟨e, -, ha⟩ := processReactionLine_ok st l st1 hp
        obtain ⟨hrxn, -, -, -, -⟩ := applyReaction_model_parts st e st1 ha
        have h1 : st.model.reactions <+: st1.model.reactions := by
          rw [hrxn]; exact ⟨_, rfl⟩
        exact h1.trans (ih st1 st' hend)

theorem rxnLoop_inv (em : List Char) :
    ∀ (lines : List (List Char)) (st st' : RxnLoopState),
      loopEnds (sectionLoop em processReactionLine st lines) st' →
      OdesInv st.model →
      (∀ r ∈ st'.model.reactions, nonnegRxn r) →
      OdesInv st'.model := by
  intro lines
  induction lines with
  | nil =>
    intro st st' hend hinv _
    rcases hend with ⟨rest, hc⟩ | he
    · simp [sectionLoop] at hc
    · simp only [sectionLoop] at he
      cases he
      exact hinv
  | cons l ls ih =>
    intro st st' hend hinv hnn
    by_cases hml : containsSub em l = true
    · have hstep : sectionLoop em processReactionLine st (l :: ls) = .cont st ls := by
        simp [sectionLoop, hml]
      rw [hstep] at hend
      rcases hend with ⟨rest, hc⟩ | he
      · cases hc
        exact hinv
      · cases he
    · have hml' : containsSub em l = false := by simpa using hml
      rcases hp : processReactionLine st l with err | st1
      · have hstep : sectionLoop em processReactionLine st (l :: ls) = .err err := by
          simp [sectionLoop, hml', hp]
        rw [hstep] at hend
        rcases hend with ⟨rest, hc⟩ | he
        · cases hc
        · cases he
      · have hloop : sectionLoop em processReactionLine st (l :: ls) =
            sectionLoop em processReactionLine st1 ls := by
          simp [sectionLoop, hml', hp]
        rw [hloop] at hend
        obtain ⟨e, -, ha⟩ := processReactionLine_ok st l st1 hp
        obtain ⟨hrxn, -, -, -, -⟩ := applyReaction_model_parts st e st1 ha
        have hmono := rxnLoop_reactions_mono em ls st1 st' hend
        have hmem : (⟨e.reactants, e.products, combinedRateOf e, e.ruleName,
            e.isReverse⟩ : Reaction) ∈ st'.model.reactions := by
          apply hmono.subset
          rw [hrxn]
          simp
        have hnr := hnn _ hmem
        have hinv1 : OdesInv st1.model :=
          applyReaction_inv st st1 e ha hnr.1 hnr.2 hinv
        exact ih st1 st' hend hinv1 hnn

/-! ### Field preservation through the species and group loops -/

theorem parseSpeciesLine_fields (m : Model) (l : List Char) (m' : Model)
    (h : parseSpeciesLine m l = .ok m') :
    m'.odes = m.odes ∧ m'.reactions = m.reactions ∧
    m'.reactions_bidirectional = m.reactions_bidirectional ∧
    (∃ cp, m'.species = m.species ++ [cp]) := by
  unfold parseSpeciesLine at h
  split at h
  · split at h
    split at h
    · injection h with h2
      subst h2
      exact ⟨rfl, rfl, rfl, _, rfl⟩
    · cases h
  · cases h

theorem parseGroupLine_fields (m : Model) (l : List Char) (m' : Model)
    (h : parseGroupLine m l = .ok m') :
    m'.odes = m.odes ∧ m'.reactions = m.reactions ∧
    m'.reactions_bidirectional = m.reactions_bidirectional ∧
    m'.species = m.species := by
  unfold parseGroupLine parseGroupValues at h
  split at h
  · cases h
  · split at h
    · cases h
    · split at h
      · split at h
        · injection h with h2
          subst h2
          exact ⟨rfl, rfl, rfl, rfl⟩
        · cases h
      · injection h with h2
        subst h2
        exact ⟨rfl, rfl, rfl, rfl⟩

theorem speciesLoop_fields (em : List Char) :
    ∀ (lines : List (List Char)) (m m' : Model),
      loopEnds (sectionLoop em parseSpeciesLine m lines) m' →
      m'.odes = m.odes ∧ m'.reactions = m.reactions ∧
      m'.reactions_bidirectional = m.reactions_bidirectional := by
  intro lines
  induction lines with
  | nil =>
    intro m m' hend
    rcases hend with ⟨rest, hc⟩ | he
    · simp [sectionLoop] at hc
    · simp only [sectionLoop] at he
      cases he
      exact ⟨rfl, rfl, rfl⟩
  | cons l ls ih =>
    intro m m' hend
    by_cases hml : containsSub em l = true
    · have hstep : sectionLoop em parseSpeciesLine m (l :: ls) = .cont m ls := by
        simp [sectionLoop, hml]
      rw [hstep] at hend
      rcases hend with ⟨rest, hc⟩ | he
      · cases hc
        exact ⟨rfl, rfl, rfl⟩
      · cases he
    · have hml' : containsSub em l = false := by simpa using hml
      rcases hp : parseSpeciesLine m l with err | m1
      · have hstep : sectionLoop em parseSpeciesLine m (l :: ls) = .err err := by
          simp [sectionLoop, hml', hp]
        rw [hstep] at hend
        rcases hend with ⟨rest, hc⟩ | he
        · cases hc
        · cases he
      · have hloop : sectionLoop em parseSpeciesLine m (l :: ls) =
            sectionLoop em parseSpeciesLine m1 ls := by
          simp [sectionLoop, hml', hp]
        rw [hloop] at hend
        obtain ⟨h1, h2, h3, -⟩ := parseSpeciesLine_fields m l m1 hp
        obtain ⟨g1, g2, g3⟩ := ih m1 m' hend
        exact ⟨g1.trans h1, g2.trans h2, g3.trans h3⟩

theorem groupLoop_fields (em : List Char) :
    ∀ (lines : List (List Char)) (m m' : Model),
      loopEnds (sectionLoop em parseGroupLine m lines) m' →
      m'.odes = m.odes ∧ m'.reactions = m.reactions ∧
      m'.reactions_bidirectional = m.reactions_bidirectional ∧
      m'.species = m.species := by
  intro lines
  induction lines with
  | nil =>
    intro m m' hend
    rcases hend with ⟨rest, hc⟩ | he
    · simp [sectionLoop] at hc
    · simp only [sectionLoop] at he
      cases he
      exact ⟨rfl, rfl, rfl, rfl⟩
  | cons l ls ih =>
    intro m m' hend
    by_cases hml : containsSub em l = true
    · have hstep : sectionLoop em parseGroupLine m (l :: ls) = .cont m ls := by
        simp [sectionLoop, hml]
      rw [hstep] at hend
      rcases hend with ⟨rest, hc⟩ | he
      · cases hc
        exact ⟨rfl, rfl, rfl, rfl⟩
      · cases he
    · have hml' : containsSub em l = false := by simpa using hml
      rcases hp : parseGroupLine m l with err | m1
      · have hstep : sectionLoop em parseGroupLine m (l :: ls) = .err err := by
          simp [sectionLoop, hml', hp]
        rw [hstep] at hend
        rcases hend with ⟨rest, hc⟩ | he
        · cases hc
        · cases he
      · have hloop : sectionLoop em parseGroupLine m (l :: ls) =
            sectionLoop em parseGroupLine m1 ls := by
          simp [sectionLoop, hml', hp]
        rw [hloop] at hend
        obtain ⟨h1, h2, h3, h4⟩ := parseGroupLine_fields m l m1 hp
        obtain ⟨g1, g2, g3, g4⟩ := ih m1 m' hend
        exact ⟨g1.trans h1, g2.trans h2, g3.trans h3, g4.trans h4⟩

/-! ### ODE/flux correspondence through the whole driver -/

theorem getD_replicate_zero (n i : Nat) :
    (List.replicate n SymExpr.zero).getD i SymExpr.zero = SymExpr.zero := by
  induction n generalizing i with
  | zero => cases i <;> rfl
  | succ n ih =>
    cases i with
    | zero => rfl
    | succ i => simp only [List.replicate_succ, List.getD_cons_succ, ih i]

theorem OdesInv_of_eq (m1 m2 : Model) (ho : m2.odes = m1.odes)
    (hr : m2.reactions = m1.reactions) (h : OdesInv m1) : OdesInv m2 := by
  intro i hi v
  rw [ho] at hi ⊢
  rw [hr]
  exact h i hi v

theorem processNet_odes_flux (m : Model) (text : List Char) (m' : Model)
    (hodes : m.odes = []) (hrxns : m.reactions = [])
    (h : processNet m text = .ok m')
    (hnn : ∀ r ∈ m'.reactions, nonnegRxn r) :
    OdesInv m' := by
  unfold processNet at h
  split at h
  · -- begin species never found: StopIteration, model returned untouched
    injection h with h2
    subst h2
    intro i hi v
    rw [hodes] at hi
    simp at hi
  · rename_i rest hskip
    split at h
    · cases h
    · -- stream ended inside the species section
      rename_i m2 hloop
      injection h with h2
      subst h2
      obtain ⟨ho2, -, -⟩ :=
        speciesLoop_fields "end species".data rest _ m2 (Or.inr hloop)
      intro i hi v
      rw [ho2] at hi
      simp [hodes] at hi
    · rename_i m2 rest2 hloop
      have hm2 := speciesLoop_fields "end species".data rest _ m2
        (Or.inl ⟨rest2, hloop⟩)
      split at h
      · -- begin reactions never found
        injection h with h2
        subst h2
        intro i hi v
        rw [hm2.1] at hi
        simp [hodes] at hi
      · rename_i rest3 hskip2
        have hinv0 : OdesInv
            { m2 with odes := List.replicate m2.species.length SymExpr.zero } := by
          intro i hi v
          rw [getD_replicate_zero]
          have : m2.reactions = [] := by rw [hm2.2.1]; exact hrxns
          simp [SymExpr.eval, this, rxnFlux]
        split at h
        · cases h
        · -- stream ended inside the reactions section
          rename_i st hloop2
          injection h with h2
          subst h2
          have hinvst : OdesInv st.model :=
            rxnLoop_inv "end reactions".data rest3 _ st (Or.inr hloop2) hinv0
              (by intro r hr; exact hnn r hr)
          exact OdesInv_of_eq st.model _ rfl rfl hinvst
        · rename_i st rest4 hloop2
          have hfields : m'.odes = st.model.odes ∧
              m'.reactions = st.model.reactions := by
            split at h
            · injection h with h2
              subst h2
              exact ⟨rfl, rfl⟩
            · rename_i rest5 hskip3
              split at h
              · cases h
              · rename_i mg hloop3
                injection h with h2
                subst h2
                obtain ⟨g1, g2, -, -⟩ :=
                  groupLoop_fields "end groups".data rest5 _ mg
                    (Or.inr hloop3)
                exact ⟨g1, g2⟩
              · rename_i mg rest6 hloop3
                injection h with h2
                subst h2
                obtain ⟨g1, g2, -, -⟩ :=
                  groupLoop_fields "end groups".data rest5 _ mg
                    (Or.inl ⟨rest6, hloop3⟩)
                exact ⟨g1, g2⟩
          have hinvst : OdesInv st.model :=
            rxnLoop_inv "end reactions".data rest3 _ st
              (Or.inl ⟨rest4, hloop2⟩) hinv0
              (by rw [← hfields.2]; exact hnn)
          exact OdesInv_of_eq st.model m' hfields.1 hfields.2 hinvst

/-! ### Claim C1 -/

/-- C1: after `generate_equations` runs generation on a fresh model (empty
`odes` and `reactions` beforehand) and returns normally, every ODE
right-hand side is symbolically equal (equal under every valuation) to the
sum over the raw, non-merged `model.reactions` list of `+rate` per
occurrence of the species index in the product tuple and `-rate` per
occurrence in the reactant tuple.  The engine response is assumed
well-formed in that all parsed species indices are nonnegative. -/
theorem c1_odes_equal_raw_reaction_flux (eo : Option (List Char))
    (m m' : Model) (b : Bool)
    (hodes : m.odes = []) (hrxns : m.reactions = [])
    (h : generate_equations eo m = (.ok m', b))
    (hnn : ∀ r ∈ m'.reactions, nonnegRxn r) :
    ∀ i : Nat, i < m'.odes.length → ∀ v,
      (m'.odes.getD i SymExpr.zero).eval v = rxnFlux i m'.reactions v := by
  unfold generate_equations at h
  rw [if_pos hodes] at h
  split at h
  · rename_i e invoked heq
    simp [Prod.mk.injEq] at h
  · rename_i text invoked heq
    rw [Prod.mk.injEq] at h
    exact processNet_odes_flux m text m' hodes hrxns h.1 hnn

/-- Concrete model for evaluating the claims: one monomer, one rule, one
initial condition, nothing generated yet. -/
def mW : Model :=
  { monomers := [⟨"A".data⟩], compartments := [], rules := ["r1".data],
    observables := [], initial_conditions := [()], species := [],
    odes := [], reactions := [], reactions_bidirectional := [] }

/-- Concrete engine response: two species and one reaction `1 → 2`. -/
def netW : List Char :=
  ("begin species\n1 A() 10\n2 A() 0\nend species\n" ++
   "begin reactions\n1 1 2 k1 #r1\nend reactions\n" ++
   "begin groups\nend groups").data

/-- The model produced by running generation on `mW` with response `netW`. -/
def mW' : Model :=
  match (generate_equations (some netW) mW).fst with
  | .ok m => m
  | .error _ => mW

/-- Concrete valuation assigning `2` to every symbol. -/
def vW : List Char → Int := fun _ => 2

theorem c1_witness :
    (mW'.odes.getD 0 SymExpr.zero).eval vW = rxnFlux 0 mW'.reactions vW :=
  c1_odes_equal_raw_reaction_flux (some netW) mW mW' true rfl rfl
    (by decide) (by decide) 0 (by decide) vW

/-! ### Claim C4 -/

/-- C4: `generate_equations` is idempotent.  On a model whose `odes` list is
already non-empty the call returns the model unchanged (so `species`,
`odes`, `reactions` and `reactions_bidirectional` keep their values) and the
external engine is not invoked. -/
theorem c4_generate_equations_idempotent (eo : Option (List Char))
    (m : Model) (h : m.odes ≠ []) :
    generate_equations eo m = (.ok m, false) := by
  unfold generate_equations
  rw [if_neg h]

theorem c4_witness :
    generate_equations (some netW) mW' = (.ok mW', false) :=
  c4_generate_equations_idempotent (some netW) mW' (by decide)

/-! ### Claim C3 -/

theorem processNet_no_parse_error (m : Model) (text : List Char) :
    processNet m text ≠ .error .networkParseError := by
  unfold processNet
  repeat' split
  all_goals simp

/-- C3 counterexample: on a stream that ends in the middle of the species
section (no `end species`, no reactions or groups section at all),
`generate_equations` returns normally with the partially built species list
instead of raising any parse error. -/
theorem c3_counterexample :
    generate_equations (some "begin species\n1 A() 10".data) mW =
      (.ok { mW with
               species := [⟨[⟨⟨"A".data⟩, [], none⟩], none⟩] }, true) := by
  decide

/-- Recognizer for the outcome the specification calls `NetworkParseError`. -/
def isNetworkParseError : Except BngError Model → Bool
  | .error .networkParseError => true
  | _ => false

/-- C3 amended: the end-of-stream exception driving the line iterator is
caught and ignored at every point, so premature end of input (and an end
marker never being preceded by its begin marker, whose search simply skips
lines) never raises: `generate_equations` never produces the
`NetworkParseError` outcome that the specification prescribes; partial
species and reaction lists are kept silently. -/
theorem c3_amended_no_parse_error (eo : Option (List Char)) (m : Model) :
    isNetworkParseError (generate_equations eo m).fst = false := by
  unfold generate_equations
  by_cases hodes : m.odes = []
  · rw [if_pos hodes]
    split
    · rename_i e invoked heq
      unfold generate_network at heq
      split at heq
      · injection heq with q1 q2
        injection q1 with q3
        rw [← q3]
        rfl
      · split at heq
        · injection heq with q1 q2
          injection q1 with q3
          rw [← q3]
          rfl
        · split at heq
          · injection heq with q1 q2
            cases q1
          · injection heq with q1 q2
            injection q1 with q3
            rw [← q3]
            rfl
    · rename_i text invoked heq
      have hnp := processNet_no_parse_error m text
      show isNetworkParseError (processNet m text) = false
      rcases hres : processNet m text with e9 | m9x
      · rw [hres] at hnp
        cases e9
        · rfl
        · rfl
        · rfl
        · exact absurd rfl hnp
        · rfl
      · rfl
  · rw [if_neg hodes]
    rfl

/-! ### Claim C5 -/

/-- C5 counterexample: a species line with leading index `99` against an
empty species list is accepted without any error and the species is placed
at position 0, not 98 — the parser performs no index-continuity check, and
the result is identical to that of the in-order line with index `1`. -/
theorem c5_counterexample :
    parseSpeciesLine mW "99 A() 100".data =
      .ok { mW with species := [⟨[⟨⟨"A".data⟩, [], none⟩], none⟩] } ∧
    parseSpeciesLine mW "99 A() 100".data =
      parseSpeciesLine mW "1 A() 100".data := by
  constructor <;> decide

/-- C5 amended: `_parse_species` splits off the leading index field but never
uses it: parsing is invariant under replacing the index token by any other
token, and a successful parse always appends exactly one species at the end
of the current list (position `len(species)`), with no continuity check and
no error for gaps or out-of-order indices. -/
theorem c5_amended_index_ignored (m : Model) (t1 t2 rest : List Char)
    (h1 : t1 ≠ []) (h2 : ∀ c ∈ t1, isWs c = false)
    (h3 : t2 ≠ []) (h4 : ∀ c ∈ t2, isWs c = false) :
    parseSpeciesLine m (t1 ++ ' ' :: rest) =
      parseSpeciesLine m (t2 ++ ' ' :: rest) ∧
    (∀ m', parseSpeciesLine m (t1 ++ ' ' :: rest) = .ok m' →
       ∃ cp, m'.species = m.species ++ [cp]) := by
  have ht1 : pySplitWs (stripChars (t1 ++ ' ' :: rest)) = t1 :: pySplitWs rest := by
    rw [pySplitWs_strip]
    exact pySplitWs_tok_cons t1 rest h1 h2
  have ht2 : pySplitWs (stripChars (t2 ++ ' ' :: rest)) = t2 :: pySplitWs rest := by
    rw [pySplitWs_strip]
    exact pySplitWs_tok_cons t2 rest h3 h4
  constructor
  · unfold parseSpeciesLine
    rw [ht1, ht2]
    rcases pySplitWs rest with _ | ⟨a, _ | ⟨b, _ | ⟨c, tl⟩⟩⟩ <;> rfl
  · intro m' hok
    unfold parseSpeciesLine at hok
    rw [ht1] at hok
    rcases hsp : pySplitWs rest with _ | ⟨a, _ | ⟨b, _ | ⟨c, tl⟩⟩⟩ <;>
      rw [hsp] at hok
    · cases hok
    · cases hok
    · have hok2 :
          (match (pySplitChar '.' (matchComplexCompartment a).2).mapM
              (parseMonomerPattern m) with
            | .ok mps =>
              Except.ok { m with
                species := m.species ++
                  [⟨mps, compartmentsGet m (matchComplexCompartment a).1⟩] }
            | .error e => Except.error e) = Except.ok m' := hok
      rcases hm : (pySplitChar '.' (matchComplexCompartment a).2).mapM
          (parseMonomerPattern m) with err | mps
      · rw [hm] at hok2
        cases hok2
      · rw [hm] at hok2
        injection hok2 with h9
        subst h9
        exact ⟨_, rfl⟩
    · cases hok

theorem c5_witness :
    parseSpeciesLine mW ("7".data ++ ' ' :: "A() 10".data) =
      parseSpeciesLine mW ("1".data ++ ' ' :: "A() 10".data) :=
  (c5_amended_index_ignored mW "7".data "1".data "A() 10".data
    (by decide) (by decide) (by decide) (by decide)).1

/-! ### Claim C8 -/

/-- C8 counterexample: on a model with no rules and also no initial
conditions, `generate_network` raises `NoInitialConditionsError`, not the
`NoRulesError` the claim requires for every model with no rules (the
initial-conditions check runs first). -/
theorem c8_counterexample :
    generate_network (some netW)
        { monomers := [], compartments := [], rules := [],
          observables := [], initial_conditions := [], species := [],
          odes := [], reactions := [], reactions_bidirectional := [] } =
      ⟨.error .noInitialConditions, false⟩ ∧
    BngError.noInitialConditions ≠ BngError.noRules := by
  constructor
  · rfl
  · decide

/-- C8 amended: `generate_network` fails fast before the engine is invoked:
with no initial conditions it raises `NoInitialConditionsError` (regardless
of the rules), and with at least one initial condition but no rules it
raises `NoRulesError`; in both cases the external engine is not reached (no
subprocess, no temporary file). -/
theorem c8_amended_precondition_errors (eo : Option (List Char)) (m : Model) :
    (m.initial_conditions = [] →
      generate_network eo m = ⟨.error .noInitialConditions, false⟩) ∧
    (m.initial_conditions ≠ [] → m.rules = [] →
      generate_network eo m = ⟨.error .noRules, false⟩) := by
  constructor
  · intro hic
    unfold generate_network
    rw [if_pos hic]
  · intro hic hr
    unfold generate_network
    rw [if_neg hic, if_pos hr]

theorem c8_witness :
    generate_network (some netW)
        { monomers := [], compartments := [], rules := [],
          observables := [], initial_conditions := [()], species := [],
          odes := [], reactions := [], reactions_bidirectional := [] } =
      ⟨.error .noRules, false⟩ :=
  (c8_amended_precondition_errors (some netW) _).2 (by decide) rfl

/-! ### Claim C9 -/

/-- Concrete model with one observable, for the group-line claim. -/
def m9 : Model :=
  { monomers := [⟨"A".data⟩], compartments := [], rules := ["r1".data],
    observables := [⟨"Obs1".data, [], []⟩], initial_conditions := [()],
    species := [], odes := [], reactions := [], reactions_bidirectional := [] }

/-- C9: parsing the group line `3 Obs1 2*1,4` appends coefficients `[2, 1]`
and species indices `[0, 3]` to observable `Obs1` (the bare term `4` gets
the default coefficient `1`; the 1-based-to-0-based shift applies to the
species indices only, never to the coefficients), and a zero-term group line
is accepted without error and appends nothing. -/
theorem c9_group_line :
    parseGroupLine m9 "3 Obs1 2*1,4".data =
      .ok { m9 with observables := [⟨"Obs1".data, [2, 1], [0, 3]⟩] } ∧
    parseGroupLine m9 "5 Obs1".data = .ok m9 := by
  constructor <;> decide

/-! ### Claim C6 -/

/-- C6 counterexample: in the combined state-plus-bond form the bond token
`?` is mapped to the `WILD` sentinel, not to `ANY` as the claim states (and
the token the code compares against for `ANY` is `!`, not `+`; `+` fails the
numeric conversion instead). -/
theorem c6_counterexample :
    parseSiteCond "s~u!?".data =
      .ok ("s".data, .stateBond "u".data .wild) ∧
    BondVal.wild ≠ BondVal.any ∧
    parseSiteCond "s~u!+".data = .error .valueError := by
  refine ⟨by decide, by decide, by decide⟩

/-- C6 amended: in the state-plus-bond site form `name~state!tok`, the bond
token `?` maps to the `WILD` sentinel; the token compared against the `ANY`
sentinel is `!` (not `+`), which can never match because the `!` separators
are consumed by the split; every other token — `+` included — is handed to
`int()`, succeeding as a numeric bond index or raising `ValueError`. -/
theorem c6_amended_bond_tokens (site state tok : List Char)
    (hsite : ∀ c ∈ site, c ≠ '~' ∧ c ≠ '!')
    (hstate : ∀ c ∈ state, c ≠ '~' ∧ c ≠ '!')
    (htok : ∀ c ∈ tok, c ≠ '~' ∧ c ≠ '!') :
    parseSiteCond (site ++ '~' :: (state ++ '!' :: tok)) =
      (if tok = ['?'] then .ok (site, .stateBond state .wild)
       else
         match pyInt tok with
         | some n => .ok (site, .stateBond state (.idx n))
         | none => .error .valueError) := by
  have hbang : (site ++ '~' :: (state ++ '!' :: tok)).contains '!' = true := by
    apply List.elem_eq_true_of_mem
    simp
  have htilde : (site ++ '~' :: (state ++ '!' :: tok)).contains '~' = true := by
    apply List.elem_eq_true_of_mem
    simp
  have hsplitT : pySplitChar '~' (site ++ '~' :: (state ++ '!' :: tok)) =
      [site, state ++ '!' :: tok] := by
    rw [pySplitChar_sep_cons '~' site _ (fun c hc => (hsite c hc).1)]
    rw [pySplitChar_no_sep '~' _ ?hclean]
    case hclean =>
      intro c hc
      rcases List.mem_append.mp hc with h9 | h9
      · exact (hstate c h9).1
      · rcases List.mem_cons.mp h9 with h8 | h8
        · rw [h8]; decide
        · exact (htok c h8).1
  have hsplitB : pySplitChar '!' (state ++ '!' :: tok) = [state, tok] := by
    rw [pySplitChar_sep_cons '!' state tok (fun c hc => (hstate c hc).2)]
    rw [pySplitChar_no_sep '!' tok (fun c hc => (htok c hc).2)]
  unfold parseSiteCond
  rw [if_pos ⟨hbang, htilde⟩, hsplitT]
  show parseSiteCondStateBond site (state ++ '!' :: tok) = _
  unfold parseSiteCondStateBond
  rw [hsplitB]
  show (if tok = ['?'] then Except.ok (site, SiteCond.stateBond state .wild)
        else if tok = ['!'] then Except.ok (site, SiteCond.stateBond state .any)
        else
          match pyInt tok with
          | some n => Except.ok (site, SiteCond.stateBond state (.idx n))
          | none => Except.error PyErr.valueError) = _
  by_cases hq : tok = ['?']
  · rw [if_pos hq, if_pos hq]
  · rw [if_neg hq, if_neg hq]
    have hb : tok ≠ ['!'] := by
      intro hc
      have : '!' ∈ tok := by rw [hc]; simp
      exact (htok '!' this).2 rfl
    rw [if_neg hb]

theorem c6_witness :
    parseSiteCond ("s".data ++ '~' :: ("u".data ++ '!' :: "?".data)) =
      .ok ("s".data, .stateBond "u".data .wild) := by
  rw [c6_amended_bond_tokens "s".data "u".data "?".data
    (by decide) (by decide) (by decide)]
  decide

/-! ### Claim C10 -/

/-- Classifier for the two bond-only condition shapes (a plain numeric bond
index or a list of numeric bond indices) — never a sentinel-carrying
condition. -/
def isPlainBondCond : SiteCond → Bool
  | .bond _ => true
  | .bondList _ => true
  | _ => false

/-- C10: in the bond-only site forms (`!` present, `~` absent) the parser
converts every bond token with `int()` unconditionally: a successful parse
only ever yields a plain numeric bond condition (never the `WILD`/`ANY`
sentinels), and the placeholder tokens `?` and `+` in that position make
parsing fail with the unguarded conversion error (`ValueError`). -/
theorem c10_bond_only_no_sentinel :
    (∀ ss : List Char, ss.contains '!' = true → ss.contains '~' = false →
      ∀ name c, parseSiteCond ss = .ok (name, c) → isPlainBondCond c = true) ∧
    parseSiteCond "s!?".data = .error .valueError ∧
    parseSiteCond "s!+".data = .error .valueError := by
  refine ⟨?_, by decide, by decide⟩
  intro ss hbang htilde name c hok
  unfold parseSiteCond at hok
  rw [if_neg ?hnot, if_pos hbang] at hok
  case hnot =>
    intro hand
    rw [htilde] at hand
    cases hand.2
  split at hok
  · rename_i sn cond heq
    unfold parseSiteCondBondOnly at hok
    split at hok
    · split at hok
      · injection hok with h9
        cases h9
        rfl
      · cases hok
    · split at hok
      · injection hok with h9
        cases h9
        rfl
      · cases hok
  · cases hok

theorem c10_witness :
    parseSiteCond "s!3".data = .ok ("s".data, .bond 3) ∧
    isPlainBondCond (SiteCond.bond 3) = true := by
  refine ⟨by decide, ?_⟩
  exact c10_bond_only_no_sentinel.1 "s!3".data (by decide) (by decide)
    "s".data (.bond 3) (by decide)

/-! ### Characterizations of one reaction-loop step -/

theorem cacheLookup_nil (k : List Char × List Int × List Int) :
    cacheLookup [] k = none := rfl

theorem cacheLookup_cons_self (k : List Char × List Int × List Int) (v : Nat)
    (c : List ((List Char × List Int × List Int) × Nat)) :
    cacheLookup ((k, v) :: c) k = some v := by
  unfold cacheLookup
  rw [List.find?_cons_of_pos _ (by simp)]

theorem applyReaction_create (st : RxnLoopState) (e : RxnEntry)
    (odes1 : List SymExpr)
    (hr : st.model.rules.contains e.ruleName = true)
    (hcl : cacheLookup st.cache (e.ruleName, e.products, e.reactants) = none)
    (ho : odesAddSub st.model.odes e.products e.reactants (combinedRateOf e) =
      some odes1) :
    applyReaction st e = .ok
      ⟨{ st.model with
           reactions := st.model.reactions ++
             [⟨e.reactants, e.products, combinedRateOf e, e.ruleName,
               e.isReverse⟩],
           odes := odes1 },
       st.rbd ++ [⟨e.reactants, e.products, combinedRateOf e, e.ruleName,
         some e.isReverse, false⟩],
       ((e.ruleName, e.reactants, e.products), st.rbd.length) :: st.cache⟩ := by
  unfold applyReaction
  rw [if_pos hr]
  simp only [hcl, ho]

theorem applyReaction_merge (st : RxnLoopState) (e : RxnEntry)
    (odes1 : List SymExpr) (j : Nat)
    (hr : st.model.rules.contains e.ruleName = true)
    (hcl : cacheLookup st.cache (e.ruleName, e.products, e.reactants) = some j)
    (ho : odesAddSub st.model.odes e.products e.reactants (combinedRateOf e) =
      some odes1) :
    applyReaction st e = .ok
      ⟨{ st.model with
           reactions := st.model.reactions ++
             [⟨e.reactants, e.products, combinedRateOf e, e.ruleName,
               e.isReverse⟩],
           odes := odes1 },
       modifyAt st.rbd j
         (fun b => { b with reversible := true,
                            rate := SymExpr.sub b.rate (combinedRateOf e) }),
       st.cache⟩ := by
  unfold applyReaction
  rw [if_pos hr]
  simp only [hcl, ho]

theorem applyReaction_index_error (st : RxnLoopState) (e : RxnEntry)
    (hr : st.model.rules.contains e.ruleName = true)
    (ho : odesAddSub st.model.odes e.products e.reactants (combinedRateOf e) =
      none) :
    applyReaction st e = .error .indexError := by
  unfold applyReaction
  rw [if_pos hr]
  simp only [ho]

/-! ### Claim C7 -/

/-- Default bidirectional record for `getD`. -/
def dBd : ReactionBd := ⟨[], [], SymExpr.zero, [], none, false⟩

theorem getD_append_left {α : Type} (l l2 : List α) (j : Nat) (d : α)
    (h : j < l.length) : (l ++ l2).getD j d = l.getD j d := by
  induction l generalizing j with
  | nil => simp at h
  | cons a t ih =>
    cases j with
    | zero => rfl
    | succ j => simpa using ih j (by simpa using h)

theorem modifyAt_getD_fields (l : List ReactionBd) (j : Nat) (cr : SymExpr)
    (j' : Nat) :
    ((modifyAt l j (fun b => { b with reversible := true, rate := SymExpr.sub b.rate cr })).getD j' dBd).reverse =
      (l.getD j' dBd).reverse ∧
    ((modifyAt l j (fun b => { b with reversible := true, rate := SymExpr.sub b.rate cr })).getD j' dBd).reactants =
      (l.getD j' dBd).reactants ∧
    ((modifyAt l j (fun b => { b with reversible := true, rate := SymExpr.sub b.rate cr })).getD j' dBd).products =
      (l.getD j' dBd).products ∧
    ((modifyAt l j (fun b => { b with reversible := true, rate := SymExpr.sub b.rate cr })).getD j' dBd).rule =
      (l.getD j' dBd).rule := by
  unfold modifyAt
  rcases hg : l.get? j with _ | a
  · exact ⟨rfl, rfl, rfl, rfl⟩
  · have hjlen : j < l.length := by
      rcases List.get?_eq_some.mp hg with ⟨hlt, -⟩
      exact hlt
    have hga : l.getD j dBd = a := by
      simp [List.getD_eq_getElem?_getD, ← List.get?_eq_getElem?, hg]
    by_cases hjj : j' = j
    · subst hjj
      rw [getD_set_self l j' _ dBd hjlen, hga]
      exact ⟨rfl, rfl, rfl, rfl⟩
    · rw [getD_set_ne l j j' _ dBd (fun hc => hjj hc.symm)]
      exact ⟨rfl, rfl, rfl, rfl⟩

theorem modifyAt_length {α : Type} (l : List α) (j : Nat) (f : α → α) :
    (modifyAt l j f).length = l.length := by
  unfold modifyAt
  rcases l.get? j with _ | a
  · rfl
  · exact List.length_set l j _

/-- C7: one reaction-loop step either merges into an existing bidirectional
record — changing only its `rate` and `reversible` fields, never its
orientation data (`reverse` flag, reactant/product tuples, rule) — or
appends a fresh record whose `reverse` flag is exactly the direction marker
of the line that created it; and the post-loop fix-up turns a record created
from a reverse-direction line (`reverse = some true`) into the forward
orientation by swapping the reactant and product tuples and multiplying the
rate by `-1`, deleting the `reverse` key, while a forward-created record
only has its `reverse` key deleted. -/
theorem c7_reverse_first_fixup (st : RxnLoopState) (e : RxnEntry)
    (st' : RxnLoopState) (h : applyReaction st e = .ok st') :
    (st'.rbd.length = st.rbd.length ∨
      st'.rbd = st.rbd ++
        [⟨e.reactants, e.products, combinedRateOf e, e.ruleName,
          some e.isReverse, false⟩]) ∧
    (∀ j : Nat, j < st.rbd.length →
      (st'.rbd.getD j dBd).reverse = (st.rbd.getD j dBd).reverse ∧
      (st'.rbd.getD j dBd).reactants = (st.rbd.getD j dBd).reactants ∧
      (st'.rbd.getD j dBd).products = (st.rbd.getD j dBd).products ∧
      (st'.rbd.getD j dBd).rule = (st.rbd.getD j dBd).rule) ∧
    (∀ bd : ReactionBd, bd.reverse = some true →
      fixupBd bd =
        ⟨bd.products, bd.reactants,
         SymExpr.mul (SymExpr.lit (-1)) bd.rate, bd.rule, none,
         bd.reversible⟩) ∧
    (∀ bd : ReactionBd, bd.reverse = some false →
      fixupBd bd = { bd with reverse := none }) := by
  have hfix1 : ∀ bd : ReactionBd, bd.reverse = some true →
      fixupBd bd =
        ⟨bd.products, bd.reactants,
         SymExpr.mul (SymExpr.lit (-1)) bd.rate, bd.rule, none,
         bd.reversible⟩ := by
    intro bd hbd
    unfold fixupBd
    rw [hbd]
  have hfix2 : ∀ bd : ReactionBd, bd.reverse = some false →
      fixupBd bd = { bd with reverse := none } := by
    intro bd hbd
    unfold fixupBd
    rw [hbd]
  rcases hor : st.model.rules.contains e.ruleName with _ | _
  · exfalso
    unfold applyReaction at h
    rw [hor] at h
    simp at h
  · rcases ho : odesAddSub st.model.odes e.products e.reactants
        (combinedRateOf e) with _ | odes1
    · exfalso
      rw [applyReaction_index_error st e hor ho] at h
      cases h
    · rcases hcl : cacheLookup st.cache (e.ruleName, e.products, e.reactants)
          with _ | j
      · rw [applyReaction_create st e odes1 hor hcl ho] at h
        injection h with h2
        subst h2
        refine ⟨Or.inr rfl, ?_, hfix1, hfix2⟩
        intro j hj
        rw [getD_append_left st.rbd _ j dBd hj]
        exact ⟨rfl, rfl, rfl, rfl⟩
      · rw [applyReaction_merge st e odes1 j hor hcl ho] at h
        injection h with h2
        subst h2
        refine ⟨Or.inl (modifyAt_length st.rbd j _), ?_, hfix1, hfix2⟩
        intro j' hj'
        exact modifyAt_getD_fields st.rbd j (combinedRateOf e) j'

/-- Concrete state and entry for evaluating the reaction-step claims. -/
def stC : RxnLoopState :=
  ⟨{ mW with odes := [SymExpr.zero, SymExpr.zero] }, [], []⟩

/-- Concrete forward reaction entry `1 → 2` for rule `r1`. -/
def eC : RxnEntry := ⟨[0], [1], ["k1".data], "r1".data, false⟩

/-- The state after applying `eC` to `stC`. -/
def stC' : RxnLoopState :=
  match applyReaction stC eC with
  | .ok s => s
  | .error _ => stC

theorem c7_witness :
    fixupBd ⟨[0], [1], SymExpr.sym "k".data, "r".data, some true, true⟩ =
      ⟨[1], [0], SymExpr.mul (SymExpr.lit (-1)) (SymExpr.sym "k".data),
       "r".data, none, true⟩ :=
  (c7_reverse_first_fixup stC eC stC' (by decide)).2.2.1 _ rfl

/-! ### Claim C2 -/

/-- C2: process an engine response whose reaction section holds exactly the
two lines of one reversible rule — a forward line and its matching reverse
line (same rule name, reactant and product tuples swapped) — on a fresh
model.  On a full run of the section, `model.reactions` receives exactly two
entries while the bidirectional list receives exactly one record, marked
`reversible`, oriented forward, with its `reverse` key deleted and a net
rate symbolically equal to the forward combined rate minus the reverse
combined rate; this holds in both arrival orders. -/
theorem c2_reversible_pair_merged (m0 : Model)
    (lineF lineR endLine : List Char) (eF eR : RxnEntry)
    (hpF : parseReactionLine lineF = .ok eF)
    (hpR : parseReactionLine lineR = .ok eR)
    (hdirF : eF.isReverse = false) (hdirR : eR.isReverse = true)
    (hrule : eR.ruleName = eF.ruleName)
    (hswap1 : eR.reactants = eF.products)
    (hswap2 : eR.products = eF.reactants)
    (hrules : m0.rules.contains eF.ruleName = true)
    (hrxns : m0.reactions = [])
    (hmF : containsSub "end reactions".data lineF = false)
    (hmR : containsSub "end reactions".data lineR = false)
    (hmE : containsSub "end reactions".data endLine = true) :
    (∀ st' rest,
      sectionLoop "end reactions".data processReactionLine ⟨m0, [], []⟩
          [lineF, lineR, endLine] = .cont st' rest →
      st'.model.reactions.length = 2 ∧
      st'.rbd.map fixupBd =
        [⟨eF.reactants, eF.products,
          SymExpr.sub (combinedRateOf eF) (combinedRateOf eR),
          eF.ruleName, none, true⟩]) ∧
    (∀ st' rest,
      sectionLoop "end reactions".data processReactionLine ⟨m0, [], []⟩
          [lineR, lineF, endLine] = .cont st' rest →
      st'.model.reactions.length = 2 ∧
      ∃ bd, st'.rbd.map fixupBd = [bd] ∧ bd.reversible = true ∧
        bd.reverse = none ∧ bd.reactants = eF.reactants ∧
        bd.products = eF.products ∧
        semEq bd.rate
          (SymExpr.sub (combinedRateOf eF) (combinedRateOf eR))) := by
  constructor
  · -- forward line first
    intro st' rest h
    rcases ho1 : odesAddSub m0.odes eF.products eF.reactants
        (combinedRateOf eF) with _ | odes1
    · exfalso
      have herr := applyReaction_index_error ⟨m0, [], []⟩ eF hrules ho1
      rw [show sectionLoop "end reactions".data processReactionLine
            ⟨m0, [], []⟩ [lineF, lineR, endLine] = .err .indexError from by
          simp [sectionLoop, hmF, processReactionLine, hpF, herr]] at h
      cases h
    · obtain ⟨st1, ha1, hst1⟩ :
          ∃ st1, applyReaction ⟨m0, [], []⟩ eF = .ok st1 ∧
            st1 = ⟨{ m0 with
                       reactions := m0.reactions ++
                         [⟨eF.reactants, eF.products, combinedRateOf eF,
                           eF.ruleName, eF.isReverse⟩],
                       odes := odes1 },
                   [⟨eF.reactants, eF.products, combinedRateOf eF,
                     eF.ruleName, some eF.isReverse, false⟩],
                   [((eF.ruleName, eF.reactants, eF.products), 0)]⟩ :=
        ⟨_, applyReaction_create ⟨m0, [], []⟩ eF odes1 hrules
            (cacheLookup_nil _) ho1, rfl⟩
      have hs1 : sectionLoop "end reactions".data processReactionLine
          ⟨m0, [], []⟩ [lineF, lineR, endLine] =
          sectionLoop "end reactions".data processReactionLine st1
            [lineR, endLine] := by
        simp [sectionLoop, hmF, processReactionLine, hpF, ha1]
      have hrules2 : st1.model.rules.contains eR.ruleName = true := by
        rw [hst1, hrule]
        exact hrules
      have hcl2 : cacheLookup st1.cache
          (eR.ruleName, eR.products, eR.reactants) = some 0 := by
        rw [hst1, hrule, hswap1, hswap2]
        exact cacheLookup_cons_self _ 0 []
      rcases ho2 : odesAddSub st1.model.odes eR.products eR.reactants
          (combinedRateOf eR) with _ | odes2
      · exfalso
        have herr2 := applyReaction_index_error st1 eR hrules2 ho2
        rw [hs1, show sectionLoop "end reactions".data processReactionLine
              st1 [lineR, endLine] = .err .indexError from by
            simp [sectionLoop, hmR, processReactionLine, hpR, herr2]] at h
        cases h
      · have ha2 := applyReaction_merge st1 eR odes2 0 hrules2 hcl2 ho2
        have hs2 : sectionLoop "end reactions".data processReactionLine st1
            [lineR, endLine] =
            .cont ⟨{ st1.model with
                       reactions := st1.model.reactions ++
                         [⟨eR.reactants, eR.products, combinedRateOf eR,
                           eR.ruleName, eR.isReverse⟩],
                       odes := odes2 },
                   modifyAt st1.rbd 0
                     (fun b => { b with reversible := true, rate := SymExpr.sub b.rate (combinedRateOf eR) }),
                   st1.cache⟩ [] := by
          simp [sectionLoop, hmR, processReactionLine, hpR, ha2, hmE]
        rw [hs1, hs2] at h
        cases h
        constructor
        · simp [hst1, hrxns]
        · rw [hst1]
          simp only [modifyAt, List.get?, List.set, List.map]
          unfold fixupBd
          rw [hdirF]
  · -- reverse line first
    intro st' rest h
    have hrulesR : m0.rules.contains eR.ruleName = true := by
      rw [hrule]
      exact hrules
    rcases ho1 : odesAddSub m0.odes eR.products eR.reactants
        (combinedRateOf eR) with _ | odes1
    · exfalso
      have herr := applyReaction_index_error ⟨m0, [], []⟩ eR hrulesR ho1
      rw [show sectionLoop "end reactions".data processReactionLine
            ⟨m0, [], []⟩ [lineR, lineF, endLine] = .err .indexError from by
          simp [sectionLoop, hmR, processReactionLine, hpR, herr]] at h
      cases h
    · obtain ⟨st1, ha1, hst1⟩ :
          ∃ st1, applyReaction ⟨m0, [], []⟩ eR = .ok st1 ∧
            st1 = ⟨{ m0 with
                       reactions := m0.reactions ++
                         [⟨eR.reactants, eR.products, combinedRateOf eR,
                           eR.ruleName, eR.isReverse⟩],
                       odes := odes1 },
                   [⟨eR.reactants, eR.products, combinedRateOf eR,
                     eR.ruleName, some eR.isReverse, false⟩],
                   [((eR.ruleName, eR.reactants, eR.products), 0)]⟩ :=
        ⟨_, applyReaction_create ⟨m0, [], []⟩ eR odes1 hrulesR
            (cacheLookup_nil _) ho1, rfl⟩
      have hs1 : sectionLoop "end reactions".data processReactionLine
          ⟨m0, [], []⟩ [lineR, lineF, endLine] =
          sectionLoop "end reactions".data processReactionLine st1
            [lineF, endLine] := by
        simp [sectionLoop, hmR, processReactionLine, hpR, ha1]
      have hrules2 : st1.model.rules.contains eF.ruleName = true := by
        rw [hst1]
        exact hrules
      have hcl2 : cacheLookup st1.cache
          (eF.ruleName, eF.products, eF.reactants) = some 0 := by
        rw [hst1, hrule, hswap1, hswap2]
        exact cacheLookup_cons_self _ 0 []
      rcases ho2 : odesAddSub st1.model.odes eF.products eF.reactants
          (combinedRateOf eF) with _ | odes2
      · exfalso
        have herr2 := applyReaction_index_error st1 eF hrules2 ho2
        rw [hs1, show sectionLoop "end reactions".data processReactionLine
              st1 [lineF, endLine] = .err .indexError from by
            simp [sectionLoop, hmF, processReactionLine, hpF, herr2]] at h
        cases h
      · have ha2 := applyReaction_merge st1 eF odes2 0 hrules2 hcl2 ho2
        have hs2 : sectionLoop "end reactions".data processReactionLine st1
            [lineF, endLine] =
            .cont ⟨{ st1.model with
                       reactions := st1.model.reactions ++
                         [⟨eF.reactants, eF.products, combinedRateOf eF,
                           eF.ruleName, eF.isReverse⟩],
                       odes := odes2 },
                   modifyAt st1.rbd 0
                     (fun b => { b with reversible := true, rate := SymExpr.sub b.rate (combinedRateOf eF) }),
                   st1.cache⟩ [] := by
          simp [sectionLoop, hmF, processReactionLine, hpF, ha2, hmE]
        rw [hs1, hs2] at h
        cases h
        constructor
        · simp [hst1, hrxns]
        · refine ⟨⟨eR.products, eR.reactants,
            SymExpr.mul (SymExpr.lit (-1))
              (SymExpr.sub (combinedRateOf eR) (combinedRateOf eF)),
            eR.ruleName, none, true⟩, ?_, rfl, rfl, ?_, ?_, ?_⟩
          · rw [hst1]
            simp only [modifyAt, List.get?, List.set, List.map]
            unfold fixupBd
            rw [hdirR]
          · rw [hswap2]
          · rw [hswap1]
          · intro v
            simp only [SymExpr.eval]
            ring

/-- Fresh reaction-loop state over `mW` with two zeroed ODE accumulators. -/
def c2st0 : RxnLoopState :=
  ⟨{ mW with odes := [SymExpr.zero, SymExpr.zero] }, [], []⟩

/-- Forward reaction line of the concrete reversible pair. -/
def c2lineF : List Char := "1 1 2 k1 #r1".data

/-- Reverse reaction line of the concrete reversible pair. -/
def c2lineR : List Char := "2 2 1 k2 #r1(reverse)".data

/-- Parsed forward entry of the concrete reversible pair. -/
def c2eF : RxnEntry := ⟨[0], [1], ["k1".data], "r1".data, false⟩

/-- Parsed reverse entry of the concrete reversible pair. -/
def c2eR : RxnEntry := ⟨[1], [0], ["k2".data], "r1".data, true⟩

/-- Result state of running the reaction section on the concrete pair. -/
def c2res : RxnLoopState :=
  match sectionLoop "end reactions".data processReactionLine c2st0
      [c2lineF, c2lineR, "end reactions".data] with
  | .cont st _ => st
  | _ => c2st0

theorem c2_witness :
    sectionLoop "end reactions".data processReactionLine c2st0
        [c2lineF, c2lineR, "end reactions".data] = .cont c2res [] ∧
    c2res.model.reactions.length = 2 ∧
    c2res.rbd.map fixupBd =
      [⟨[0], [1], SymExpr.sub (combinedRateOf c2eF) (combinedRateOf c2eR),
        "r1".data, none, true⟩] := by
  have hloop : sectionLoop "end reactions".data processReactionLine c2st0
      [c2lineF, c2lineR, "end reactions".data] = .cont c2res [] := by decide
  have hmain :=
    (c2_reversible_pair_merged { mW with odes := [SymExpr.zero, SymExpr.zero] }
      c2lineF c2lineR "end reactions".data c2eF c2eR
      (by decide) (by decide) rfl rfl rfl rfl rfl (by decide) rfl
      (by decide) (by decide) (by decide)).1 c2res [] hloop
  exact ⟨hloop, hmain.1, hmain.2⟩

end Bng